import Mathlib

/-!
# Verification of the SVG interpolator geometry core

Shallow embedding of the curve tools (`src/paths.js`) and the point generator
(`src/point-generator.js`) of the `svg-interpolator` repository, together with
theorems settling the specification claims about them.

Numbers are modelled by exact arithmetic: the purely algebraic operations are
stated over an arbitrary linear ordered field (instantiated at `ℚ` so that
concrete runs are decidable), while the elliptical-arc and arc-length code,
which uses `sqrt`, `cos`, `sin`, `acos` and `π`, is modelled over `ℝ`.
-/

set_option maxHeartbeats 1000000

/-- A 2D point, `{x, y}` in the source. -/
structure Pt (α : Type) where
  x : α
  y : α
deriving DecidableEq, Repr

/-- `clamp(val, min, max)` from `paths.js` line 34: `Math.min(Math.max(val, min), max)`. -/
def clamp {α : Type} [LinearOrder α] (val lo hi : α) : α :=
  min (max val lo) hi

/-- `pointOnLine(p0, p1, t)` from `paths.js` lines 38-49:
each coordinate is `x0 + (x1 - x0) * t`. -/
def pointOnLine {α : Type} [Field α] (p0 p1 : Pt α) (t : α) : Pt α :=
  ⟨p0.x + (p1.x - p0.x) * t, p0.y + (p1.y - p0.y) * t⟩

/-- `pointOnQuadraticBezier(p0, p1, p2, t)` from `paths.js` lines 51-62. -/
def pointOnQuadraticBezier {α : Type} [Field α] (p0 p1 p2 : Pt α) (t : α) : Pt α :=
  ⟨(1 - t)^2 * p0.x + 2 * t * (1 - t) * p1.x + t^2 * p2.x,
   (1 - t)^2 * p0.y + 2 * t * (1 - t) * p1.y + t^2 * p2.y⟩

/-- `pointOnCubicBezierCurve(p0, p1, p2, p3, t)` from `paths.js` lines 65-76. -/
def pointOnCubicBezierCurve {α : Type} [Field α] (p0 p1 p2 p3 : Pt α) (t : α) : Pt α :=
  ⟨(1 - t)^3 * p0.x + 3 * t * (1 - t)^2 * p1.x + 3 * (1 - t) * t^2 * p2.x + t^3 * p3.x,
   (1 - t)^3 * p0.y + 3 * t * (1 - t)^2 * p1.y + 3 * (1 - t) * t^2 * p2.y + t^3 * p3.y⟩

/-!
## The point emitter

`getPoints(pointFn, steps)` from `paths.js` lines 285-290 is the loop

  for (let i = 0, t = 1 / steps; i <= 1; i += t) pts.push(pointFn(i));

We model the loop body/guard literally in `getPointsGo`, which consumes a fuel
argument that strictly exceeds the number of iterations actually performed
(with exact arithmetic and `steps ≥ 1` the loop runs exactly `steps + 1`
times, so fuel `steps + 2` reproduces it).  For `steps = 0` JavaScript
evaluates `1 / 0` to `Infinity`: the loop body runs once at `i = 0` and the
increment pushes `i` past the guard, so exactly `[pointFn(0)]` is returned;
that branch is transcribed directly.
-/

/-- One-to-one model of the loop of `getPoints` (`paths.js` line 287):
while `i ≤ 1`, push `pointFn i` and increment `i` by `t`. -/
def getPointsGo {α : Type} [LinearOrderedField α] (pointFn : α → Pt α) (t : α) :
    ℕ → α → List (Pt α)
  | 0, _ => []
  | fuel + 1, i => if i ≤ 1 then pointFn i :: getPointsGo pointFn t fuel (i + t) else []

/-- `getPoints(pointFn, steps)` from `paths.js` lines 285-290.  The `steps = 0`
branch records the JavaScript behaviour of the same loop when `t = 1/0 = Infinity`:
the body runs once at `i = 0` and the loop then exits. -/
def getPoints {α : Type} [LinearOrderedField α] (pointFn : α → Pt α) (steps : ℕ) :
    List (Pt α) :=
  if steps = 0 then [pointFn 0]
  else getPointsGo pointFn (1 / (steps : α)) (steps + 2) 0

/-!
## The point generator (`src/point-generator.js`)
-/

/-- The state of a `PointGenerator` (`point-generator.js` lines 27-35):
resolution, segment length, the point list and the tracked center. -/
structure PGen where
  res : ℕ
  len : ℚ
  points : List (Pt ℚ)
  center : Pt ℚ
deriving DecidableEq, Repr

/-- `scale(amt)` from `point-generator.js` lines 39-45: multiply every point's
coordinates by `amt` in place. -/
def PGen.scale (g : PGen) (amt : ℚ) : PGen :=
  { g with points := g.points.map fun p => ⟨p.x * amt, p.y * amt⟩ }

/-- `translate(x, y)` from `point-generator.js` lines 49-57: shift the tracked
center and every point by `(x, y)`. -/
def PGen.translate (g : PGen) (dx dy : ℚ) : PGen :=
  { g with
    center := ⟨g.center.x + dx, g.center.y + dy⟩,
    points := g.points.map fun p => ⟨p.x + dx, p.y + dy⟩ }

/-- The bounding box `{x, y, width, height}` returned by `bbox()`. -/
structure BBox where
  x : ℚ
  y : ℚ
  width : ℚ
  height : ℚ
deriving DecidableEq, Repr

/-- Accumulator of the `forEach` fold inside `bbox()`:
the running `xmin`, `xmax`, `ymin`, `ymax`. -/
structure Extents where
  xmin : ℚ
  xmax : ℚ
  ymin : ℚ
  ymax : ℚ
deriving DecidableEq, Repr

/-- The body of the `forEach` in `bbox()` (`point-generator.js` lines 89-94),
updating the four running extremes with the conditionals of the source. -/
def extStep (acc : Extents) (p : Pt ℚ) : Extents :=
  ⟨if p.x < acc.xmin then p.x else acc.xmin,
   if acc.xmax < p.x then p.x else acc.xmax,
   if p.y < acc.ymin then p.y else acc.ymin,
   if acc.ymax < p.y then p.y else acc.ymax⟩

/-- `bbox()` from `point-generator.js` lines 83-101.  On an empty point list the
source reads `this.points[0].x` with `this.points[0]` being `undefined`, which
throws a `TypeError`; that failure is modelled as `none`. -/
def bbox (ps : List (Pt ℚ)) : Option BBox :=
  match ps with
  | [] => none
  | first :: _ =>
    let e := ps.foldl extStep ⟨first.x, first.x, first.y, first.y⟩
    some ⟨e.xmin, e.ymin, e.xmax - e.xmin, e.ymax - e.ymin⟩

/-- `recenter()` from `point-generator.js` lines 105-114: shift every point by
the bounding-box center.  Fails (throws, modelled as `none`) exactly when
`bbox()` does. -/
def recenter (ps : List (Pt ℚ)) : Option (List (Pt ℚ)) :=
  match bbox ps with
  | none => none
  | some b =>
    let xshift := b.x + b.width / 2
    let yshift := b.y + b.height / 2
    some (ps.map fun p => ⟨p.x - xshift, p.y - yshift⟩)

/-- `qdist(p1, p2)` from `point-generator.js` lines 118-120: squared distance. -/
def qdist (p1 p2 : Pt ℚ) : ℚ :=
  (p2.x - p1.x)^2 + (p2.y - p1.y)^2

/-- The pair list built by the nested `forEach` of `clean`
(`point-generator.js` lines 131-138): every ordered pair of distinct indices
whose squared distance is below the threshold. -/
def closePairs (minDist : ℚ) (ps : List (Pt ℚ)) : List (ℕ × ℕ) :=
  ps.enum.flatMap fun a => ps.enum.filterMap fun b =>
    if a.1 ≠ b.1 ∧ qdist a.2 b.2 < minDist then some (a.1, b.1) else none

/-- The body of the `reduce` of `clean` (`point-generator.js` lines 141-143):
skip a pair if either of its indices is already marked, otherwise mark the
second index. -/
def cleanStep (p : List ℕ) (c : ℕ × ℕ) : List ℕ :=
  if c.1 ∈ p ∨ c.2 ∈ p then p else p ++ [c.2]

/-- `clean(points, tolerance)` from `point-generator.js` lines 125-147, with
`len` standing for `this.len`: build the close-pair list, reduce it to a
removal index list, and filter those indices out. -/
def clean (len : ℚ) (points : List (Pt ℚ)) (tolerance : ℚ) : List (Pt ℚ) :=
  let minDist := (len - tolerance)^2
  let removal := (closePairs minDist points).foldl cleanStep []
  (points.enum.filter fun a => decide (a.1 ∉ removal)).map Prod.snd

/-!
## Real-valued geometry (`src/paths.js`)

The arc evaluator and the arc-length sampler use `Math.sqrt`, `Math.cos`,
`Math.sin`, `Math.acos` and `Math.PI`; they are modelled over `ℝ`.
-/

/-- `distance(p0, p1)` from `paths.js` lines 13-15. -/
noncomputable def distance (p0 p1 : Pt ℝ) : ℝ :=
  Real.sqrt ((p1.x - p0.x)^2 + (p1.y - p0.y)^2)

/-- JavaScript `Math.trunc`-style integer part used by the `%` operator:
round toward zero. -/
noncomputable def jsTrunc (x : ℝ) : ℤ :=
  if 0 ≤ x then ⌊x⌋ else ⌈x⌉

/-- The JavaScript remainder operator `x % m` (sign of the dividend). -/
noncomputable def jsRem (x m : ℝ) : ℝ :=
  x - m * (jsTrunc (x / m) : ℝ)

/-- `mod(x, m)` from `paths.js` lines 17-19: `(x % m + m) % m`. -/
noncomputable def jsMod (x m : ℝ) : ℝ :=
  jsRem (jsRem x m + m) m

/-- `toRadians(angle)` from `paths.js` lines 21-23. -/
noncomputable def toRadians (angle : ℝ) : ℝ :=
  angle * (Real.pi / 180)

/-- `angleBetween(v0, v1)` from `paths.js` lines 25-32: the signed angle from
`v0` to `v1`, computed as `sign * acos(dot / (|v0| * |v1|))`. -/
noncomputable def angleBetween (v0 v1 : Pt ℝ) : ℝ :=
  let p := v0.x * v1.x + v0.y * v1.y
  let n := Real.sqrt ((v0.x^2 + v0.y^2) * (v1.x^2 + v1.y^2))
  let sign : ℝ := if v0.x * v1.y - v0.y * v1.x < 0 then -1 else 1
  sign * Real.arccos (p / n)

/-- The parameters of `pointOnArc(p0, rx, ry, xAxisRotation, largeArcFlag,
sweepFlag, p1, t)` (`paths.js` line 83), other than `t`. -/
structure ArcInput where
  p0 : Pt ℝ
  rx : ℝ
  ry : ℝ
  rot : ℝ
  lrg : Bool
  swp : Bool
  p1 : Pt ℝ

namespace Arc

/-- `rx = Math.abs(rx)` (`paths.js` line 86). -/
noncomputable def rxAbs (A : ArcInput) : ℝ := |A.rx|

/-- `ry = Math.abs(ry)` (`paths.js` line 87). -/
noncomputable def ryAbs (A : ArcInput) : ℝ := |A.ry|

/-- `xAxisRotationRadians` (`paths.js` lines 88-89). -/
noncomputable def phi (A : ArcInput) : ℝ := toRadians (jsMod A.rot 360)

/-- `dx = (p0.x - p1.x) / 2` and `dy = (p0.y - p1.y) / 2`
(`paths.js` lines 105-106), packed as a point. -/
noncomputable def dMid (A : ArcInput) : Pt ℝ :=
  ⟨(A.p0.x - A.p1.x) / 2, (A.p0.y - A.p1.y) / 2⟩

/-- `transformedPoint` (`paths.js` lines 107-110). -/
noncomputable def tp (A : ArcInput) : Pt ℝ :=
  ⟨Real.cos (phi A) * (dMid A).x + Real.sin (phi A) * (dMid A).y,
   -Real.sin (phi A) * (dMid A).x + Real.cos (phi A) * (dMid A).y⟩

/-- `radiiCheck` (`paths.js` line 112). -/
noncomputable def radiiCheck (A : ArcInput) : ℝ :=
  (tp A).x^2 / (rxAbs A)^2 + (tp A).y^2 / (ryAbs A)^2

/-- `rx` after the radii correction of `paths.js` lines 113-116. -/
noncomputable def rxF (A : ArcInput) : ℝ :=
  if 1 < radiiCheck A then Real.sqrt (radiiCheck A) * rxAbs A else rxAbs A

/-- `ry` after the radii correction of `paths.js` lines 113-116. -/
noncomputable def ryF (A : ArcInput) : ℝ :=
  if 1 < radiiCheck A then Real.sqrt (radiiCheck A) * ryAbs A else ryAbs A

/-- `cRadicand = cSquareNumerator / cSquareRootDenom` (`paths.js` lines 119-121). -/
noncomputable def cRadicand (A : ArcInput) : ℝ :=
  ((rxF A)^2 * (ryF A)^2 - (rxF A)^2 * (tp A).y^2 - (ryF A)^2 * (tp A).x^2) /
    ((rxF A)^2 * (tp A).y^2 + (ryF A)^2 * (tp A).x^2)

/-- The radicand clamped at zero (`paths.js` line 123). -/
noncomputable def cRadicandPos (A : ArcInput) : ℝ :=
  if cRadicand A < 0 then 0 else cRadicand A

/-- `cCoef` (`paths.js` line 124). -/
noncomputable def cCoef (A : ArcInput) : ℝ :=
  (if A.lrg ≠ A.swp then 1 else -1) * Real.sqrt (cRadicandPos A)

/-- `transformedCenter` (`paths.js` lines 125-128). -/
noncomputable def tc (A : ArcInput) : Pt ℝ :=
  ⟨cCoef A * (rxF A * (tp A).y / ryF A),
   cCoef A * (-(ryF A * (tp A).x) / rxF A)⟩

/-- `center` (`paths.js` lines 131-134). -/
noncomputable def center (A : ArcInput) : Pt ℝ :=
  ⟨Real.cos (phi A) * (tc A).x - Real.sin (phi A) * (tc A).y + (A.p0.x + A.p1.x) / 2,
   Real.sin (phi A) * (tc A).x + Real.cos (phi A) * (tc A).y + (A.p0.y + A.p1.y) / 2⟩

/-- `startVector` (`paths.js` lines 140-143). -/
noncomputable def sv (A : ArcInput) : Pt ℝ :=
  ⟨((tp A).x - (tc A).x) / rxF A, ((tp A).y - (tc A).y) / ryF A⟩

/-- `startAngle` (`paths.js` lines 144-147). -/
noncomputable def startAngle (A : ArcInput) : ℝ :=
  angleBetween ⟨1, 0⟩ (sv A)

/-- `endVector` (`paths.js` lines 149-152). -/
noncomputable def ev (A : ArcInput) : Pt ℝ :=
  ⟨(-(tp A).x - (tc A).x) / rxF A, (-(tp A).y - (tc A).y) / ryF A⟩

/-- `sweepAngle` as first computed on `paths.js` line 153. -/
noncomputable def sweep0 (A : ArcInput) : ℝ :=
  angleBetween (sv A) (ev A)

/-- `sweepAngle` after the sweep-flag corrections of `paths.js` lines 155-159. -/
noncomputable def sweepAdj (A : ArcInput) : ℝ :=
  if A.swp = false ∧ 0 < sweep0 A then sweep0 A - 2 * Real.pi
  else if A.swp = true ∧ sweep0 A < 0 then sweep0 A + 2 * Real.pi
  else sweep0 A

/-- `sweepAngle` after `sweepAngle %= 2 * Math.PI` (`paths.js` line 161). -/
noncomputable def sweepAngle (A : ArcInput) : ℝ :=
  jsRem (sweepAdj A) (2 * Real.pi)

end Arc

/-- `pointOnArc` from `paths.js` lines 83-185: the two degenerate branches
(lines 91-98), then the evaluation at `angle = startAngle + sweepAngle * t`
rotated and translated back (lines 164-171).  The auxiliary metadata attached
to the returned object on lines 173-180 carries no coordinate information and
is not modelled. -/
noncomputable def pointOnArc (A : ArcInput) (t : ℝ) : Pt ℝ :=
  if A.p0.x = A.p1.x ∧ A.p0.y = A.p1.y then A.p0
  else if Arc.rxAbs A = 0 ∨ Arc.ryAbs A = 0 then pointOnLine A.p0 A.p1 t
  else
    let angle := Arc.startAngle A + Arc.sweepAngle A * t
    let eX := Arc.rxF A * Real.cos angle
    let eY := Arc.ryF A * Real.sin angle
    ⟨Real.cos (Arc.phi A) * eX - Real.sin (Arc.phi A) * eY + (Arc.center A).x,
     Real.sin (Arc.phi A) * eX + Real.cos (Arc.phi A) * eY + (Arc.center A).y⟩

/-- The record returned by `approximateArcLengthOfCurve`
(`paths.js` lines 219-223). -/
structure ArcApprox where
  arcLength : ℝ
  arcLengthMap : List (ℝ × ℝ)
  approximationLines : List (Pt ℝ × Pt ℝ)

/-- The loop of `approximateArcLengthOfCurve` (`paths.js` lines 197-217):
for `i` from the current index up to `resolution - 1`, sample at
`t = clamp(i * (1 / resolution), 0, 1)`, accumulate the distance and record
the `(t, arcLength)` entry; after the loop, the final stretch to the point at
`t = 1` is recorded.  Entries are accumulated in the order of the source. -/
noncomputable def arcApproxGo (f : ℝ → Pt ℝ) (res : ℕ) :
    ℕ → Pt ℝ → ℝ → ArcApprox
  | i, prevPoint, total =>
    if h : i < res then
      let t := clamp ((i : ℝ) * (1 / (res : ℝ))) 0 1
      let nextPoint := f t
      let total2 := total + distance prevPoint nextPoint
      let rest := arcApproxGo f res (i + 1) nextPoint total2
      ⟨rest.arcLength, (t, total2) :: rest.arcLengthMap,
        (prevPoint, nextPoint) :: rest.approximationLines⟩
    else
      let nextPoint := f 1
      ⟨total + distance prevPoint nextPoint,
        [(1, total + distance prevPoint nextPoint)],
        [(prevPoint, nextPoint)]⟩
termination_by i => res - i

/-- `approximateArcLengthOfCurve(resolution, pointOnCurveFunc)` from
`paths.js` lines 187-224.  `resolution ? resolution : 500` maps a zero
resolution to the default 500. -/
noncomputable def approximateArcLengthOfCurve (resolution : ℕ) (f : ℝ → Pt ℝ) :
    ArcApprox :=
  arcApproxGo f (if resolution = 0 then 500 else resolution) 0 (f 0) 0

/-- `nsteps(curveFn, res, len)` from `paths.js` lines 277-280. -/
noncomputable def nsteps (f : ℝ → Pt ℝ) (res : ℕ) (len : ℝ) : ℤ :=
  ⌊(approximateArcLengthOfCurve res f).arcLength / len⌋

/-!
## Helper lemmas
-/

/-- Unfolding lemma for one iteration of the `getPoints` loop. -/
lemma getPointsGo_succ {α : Type} [LinearOrderedField α] (f : α → Pt α) (t : α)
    (fuel : ℕ) (i : α) :
    getPointsGo f t (fuel + 1) i =
      if i ≤ 1 then f i :: getPointsGo f t fuel (i + t) else [] := rfl

/-- With exact arithmetic and `steps ≥ 1`, the loop of `getPoints` started at
`i = k/steps` with enough fuel emits exactly the points at
`k/steps, (k+1)/steps, …, steps/steps`. -/
lemma getPointsGo_closed {α : Type} [LinearOrderedField α] (f : α → Pt α) (steps : ℕ)
    (hs : 1 ≤ steps) :
    ∀ (m k fuel : ℕ), k + m = steps → m + 2 ≤ fuel →
      getPointsGo f (1 / (steps : α)) fuel ((k : α) / (steps : α)) =
        (List.range (m + 1)).map (fun j => f (((k + j : ℕ) : α) / (steps : α))) := by
  have hsp : (0 : α) < (steps : α) := by exact_mod_cast hs
  have hs0 : (steps : α) ≠ 0 := ne_of_gt hsp
  intro m
  induction m with
  | zero =>
    intro k fuel hk hf
    obtain ⟨fuel2, rfl⟩ : ∃ fuel2, fuel = fuel2 + 1 + 1 := ⟨fuel - 2, by omega⟩
    have hks : k = steps := by omega
    rw [hks]
    have h1 : ((steps : α)) / (steps : α) = 1 := div_self hs0
    rw [h1, getPointsGo_succ, if_pos le_rfl, getPointsGo_succ, if_neg]
    · simp [List.range_succ, h1]
    · have : (0 : α) < 1 / (steps : α) := by positivity
      intro hcon
      linarith
  | succ m ih =>
    intro k fuel hk hf
    obtain ⟨fuel2, rfl⟩ : ∃ fuel2, fuel = fuel2 + 1 := ⟨fuel - 1, by omega⟩
    have hk1 : (k : α) / (steps : α) ≤ 1 := by
      rw [div_le_one hsp]
      exact_mod_cast (by omega : k ≤ steps)
    have harg : (k : α) / (steps : α) + 1 / (steps : α) = ((k + 1 : ℕ) : α) / (steps : α) := by
      push_cast
      rw [div_add_div_same]
    rw [getPointsGo_succ, if_pos hk1, harg, ih (k + 1) fuel2 (by omega) (by omega)]
    rw [show List.range (m + 1 + 1) = 0 :: (List.range (m + 1)).map Nat.succ from
      List.range_succ_eq_map _]
    simp only [List.map_cons, List.map_map]
    have htail : List.map ((fun j => f (((k + j : ℕ) : α) / (steps : α))) ∘ Nat.succ)
        (List.range (m + 1)) =
        List.map (fun j => f ((((k + 1) + j : ℕ) : α) / (steps : α))) (List.range (m + 1)) := by
      apply List.map_congr_left
      intro j hj
      simp only [Function.comp_apply]
      congr 1
      push_cast
      ring
    rw [htail]
    norm_num

/-- With exact arithmetic and `steps ≥ 1`, `getPoints` emits exactly the
points at `u = 0, 1/steps, …, steps/steps`. -/
lemma getPoints_closed {α : Type} [LinearOrderedField α] (f : α → Pt α) (steps : ℕ)
    (hs : 1 ≤ steps) :
    getPoints f steps =
      (List.range (steps + 1)).map (fun (j : ℕ) => f ((j : α) / (steps : α))) := by
  unfold getPoints
  rw [if_neg (by omega)]
  have h0 : ((0 : ℕ) : α) / (steps : α) = 0 := by simp
  have := getPointsGo_closed f steps hs steps 0 (steps + 2) (by omega) (by omega)
  rw [h0] at this
  rw [this]
  apply List.map_congr_left
  intro j hj
  norm_num

/-- C1 (amended): for every curve evaluator `pointFn` and every `steps`, the
point sequence emitted by `getPoints` is non-empty; with exact arithmetic,
for `steps ≥ 1` the step accumulation reaches `u = 1` exactly and the last
emitted point is the evaluation at `u = 1`; for `steps = 0` (JavaScript step
`1/0 = Infinity`) a single point is emitted, namely the evaluation at
`u = 0`, not the endpoint at `u = 1`. -/
theorem getPoints_last_point {α : Type} [LinearOrderedField α]
    (f : α → Pt α) (steps : ℕ) :
    getPoints f steps ≠ [] ∧
    (1 ≤ steps → (getPoints f steps).getLast? = some (f 1)) ∧
    (steps = 0 → getPoints f steps = [f 0]) := by
  by_cases h0 : steps = 0
  · subst h0
    exact ⟨by simp [getPoints], fun h => absurd h (by omega), fun _ => rfl⟩
  · have hs : 1 ≤ steps := by omega
    have hsp : (0 : α) < (steps : α) := by exact_mod_cast hs
    refine ⟨?_, fun _ => ?_, fun h => absurd h h0⟩
    · rw [getPoints_closed f steps hs]
      intro hcon
      have hlen := congrArg List.length hcon
      simp at hlen
    · rw [getPoints_closed f steps hs, List.range_succ, List.map_append]
      simp only [List.map_cons, List.map_nil]
      rw [List.getLast?_concat]
      congr 2
      exact div_self (ne_of_gt hsp)

/-- Witness for C1 at a concrete input: a line evaluator with `steps = 2`
really ends at the `u = 1` endpoint. -/
theorem getPoints_last_point_witness :
    (getPoints (pointOnLine (⟨0, 0⟩ : Pt ℚ) ⟨1, 0⟩) 2).getLast? =
      some (pointOnLine (⟨0, 0⟩ : Pt ℚ) ⟨1, 0⟩ 1) :=
  (getPoints_last_point (pointOnLine (⟨0, 0⟩ : Pt ℚ) ⟨1, 0⟩) 2).2.1 (by norm_num)

/-- C1 counterexample to the claim as stated: for the line evaluator from
`(0,0)` to `(2,0)` and `steps = 0`, `getPoints` emits the single point at
`u = 0`, whose value is not the evaluation at `u = 1`; the endpoint is not
emitted. -/
theorem getPoints_steps_zero_cex :
    getPoints (pointOnLine (⟨0, 0⟩ : Pt ℚ) ⟨2, 0⟩) 0 =
      [pointOnLine (⟨0, 0⟩ : Pt ℚ) ⟨2, 0⟩ 0] ∧
    (getPoints (pointOnLine (⟨0, 0⟩ : Pt ℚ) ⟨2, 0⟩) 0).getLast? ≠
      some (pointOnLine (⟨0, 0⟩ : Pt ℚ) ⟨2, 0⟩ 1) := by
  constructor
  · rfl
  · norm_num [getPoints, pointOnLine, Pt.mk.injEq]

/-- C10: `scale` multiplies every point's coordinates (preserving their number
and order) and leaves the resolution, the segment length and the tracked
center accumulator unchanged; only `translate` updates the center. -/
theorem scale_frame (g : PGen) (amt dx dy : ℚ) :
    (g.scale amt).res = g.res ∧ (g.scale amt).len = g.len ∧
    (g.scale amt).center = g.center ∧
    (g.scale amt).points = g.points.map (fun p => ⟨p.x * amt, p.y * amt⟩) ∧
    (g.translate dx dy).center = ⟨g.center.x + dx, g.center.y + dy⟩ :=
  ⟨rfl, rfl, rfl, rfl, rfl⟩

/-- C9: the bounding-box computation and `recenter` fail (throw, modelled as
`none`) exactly on the empty point cloud, and succeed with a well-defined
value on every non-empty cloud. -/
theorem bbox_recenter_empty_fail (ps : List (Pt ℚ)) :
    (bbox ps = none ↔ ps = []) ∧ (recenter ps = none ↔ ps = []) := by
  constructor
  · cases ps <;> simp [bbox]
  · cases ps <;> simp [recenter, bbox]

/-- One step of the extents fold commutes with shifting the point and the
accumulator by the same amount. -/
lemma extStep_shift (acc : Extents) (p : Pt ℚ) (sx sy : ℚ) :
    extStep ⟨acc.xmin - sx, acc.xmax - sx, acc.ymin - sy, acc.ymax - sy⟩
        ⟨p.x - sx, p.y - sy⟩ =
      ⟨(extStep acc p).xmin - sx, (extStep acc p).xmax - sx,
       (extStep acc p).ymin - sy, (extStep acc p).ymax - sy⟩ := by
  simp only [extStep, sub_lt_sub_iff_right,
    apply_ite (fun z => z - sx), apply_ite (fun z => z - sy)]

/-- The extents fold commutes with a uniform shift of all points. -/
lemma foldl_extStep_shift (ps : List (Pt ℚ)) (sx sy : ℚ) :
    ∀ acc : Extents,
      (ps.map fun p => (⟨p.x - sx, p.y - sy⟩ : Pt ℚ)).foldl extStep
          ⟨acc.xmin - sx, acc.xmax - sx, acc.ymin - sy, acc.ymax - sy⟩ =
        ⟨(ps.foldl extStep acc).xmin - sx, (ps.foldl extStep acc).xmax - sx,
         (ps.foldl extStep acc).ymin - sy, (ps.foldl extStep acc).ymax - sy⟩ := by
  induction ps with
  | nil => intro acc; rfl
  | cons p ps ih =>
    intro acc
    simp only [List.map_cons, List.foldl_cons, extStep_shift]
    exact ih (extStep acc p)

/-- Shifting every point shifts the bounding box and keeps its dimensions. -/
lemma bbox_shift (ps : List (Pt ℚ)) (sx sy : ℚ) (b : BBox) (h : bbox ps = some b) :
    bbox (ps.map fun p => (⟨p.x - sx, p.y - sy⟩ : Pt ℚ)) =
      some ⟨b.x - sx, b.y - sy, b.width, b.height⟩ := by
  cases ps with
  | nil => simp [bbox] at h
  | cons q l =>
    simp only [bbox, Option.some.injEq] at h
    subst h
    have hf := foldl_extStep_shift (q :: l) sx sy ⟨q.x, q.x, q.y, q.y⟩
    simp only [List.map_cons] at hf
    simp only [bbox, List.map_cons]
    rw [hf]
    simp only [Option.some.injEq, BBox.mk.injEq]
    refine ⟨trivial, trivial, by ring, by ring⟩

/-- C8: on any non-empty point cloud (`recenter` succeeds), one `recenter`
puts the bounding-box center at the origin, and a second `recenter` shifts
every point by `(0, 0)`, returning the same point list. -/
theorem recenter_idempotent (ps qs : List (Pt ℚ)) (h : recenter ps = some qs) :
    (∃ b2, bbox qs = some b2 ∧ b2.x + b2.width / 2 = 0 ∧ b2.y + b2.height / 2 = 0) ∧
    recenter qs = some qs := by
  cases hb : bbox ps with
  | none => simp [recenter, hb] at h
  | some b =>
    simp only [recenter, hb, Option.some.injEq] at h
    have h2 := bbox_shift ps (b.x + b.width / 2) (b.y + b.height / 2) b hb
    rw [h] at h2
    refine ⟨⟨_, h2, by ring, by ring⟩, ?_⟩
    simp only [recenter, h2, Option.some.injEq]
    have hfun : ∀ p : Pt ℚ,
        (⟨p.x - (b.x - (b.x + b.width / 2) + b.width / 2),
          p.y - (b.y - (b.y + b.height / 2) + b.height / 2)⟩ : Pt ℚ) = p := by
      intro p
      have hx : b.x - (b.x + b.width / 2) + b.width / 2 = 0 := by ring
      have hy : b.y - (b.y + b.height / 2) + b.height / 2 = 0 := by ring
      rw [hx, hy]
      simp
    trans (qs.map id)
    · exact List.map_congr_left fun p _ => hfun p
    · exact List.map_id qs

/-- Witness for C8 at a concrete input. -/
theorem recenter_idempotent_witness :
    (∃ b2, bbox [(⟨-1, -2⟩ : Pt ℚ), ⟨1, 2⟩] = some b2 ∧
      b2.x + b2.width / 2 = 0 ∧ b2.y + b2.height / 2 = 0) ∧
    recenter [(⟨-1, -2⟩ : Pt ℚ), ⟨1, 2⟩] = some [⟨-1, -2⟩, ⟨1, 2⟩] :=
  recenter_idempotent [⟨0, 0⟩, ⟨2, 4⟩] [⟨-1, -2⟩, ⟨1, 2⟩]
    (by norm_num [recenter, bbox, extStep])

/-- The reduce step of `clean` only ever grows the removal list. -/
lemma cleanStep_subset (p : List ℕ) (c : ℕ × ℕ) : p ⊆ cleanStep p c := by
  unfold cleanStep
  split
  · exact fun x hx => hx
  · exact fun x hx => List.mem_append_left _ hx

/-- The reduce of `clean` only ever grows the removal list. -/
lemma foldl_cleanStep_subset (l : List (ℕ × ℕ)) : ∀ p, p ⊆ l.foldl cleanStep p := by
  induction l with
  | nil => intro p; exact fun x hx => hx
  | cons c l ih => intro p; exact (cleanStep_subset p c).trans (ih (cleanStep p c))

/-- The removal list produced by the reduce of `clean` covers every processed
pair: at least one index of each pair is marked for removal. -/
lemma foldl_cleanStep_cover (l : List (ℕ × ℕ)) :
    ∀ p, ∀ c ∈ l, c.1 ∈ l.foldl cleanStep p ∨ c.2 ∈ l.foldl cleanStep p := by
  induction l with
  | nil => intro p c hc; simp at hc
  | cons d l ih =>
    intro p c hc
    simp only [List.foldl_cons]
    rcases List.mem_cons.mp hc with h | h
    · subst h
      by_cases hd : c.1 ∈ p ∨ c.2 ∈ p
      · rcases hd with h1 | h2
        · exact Or.inl (foldl_cleanStep_subset l _ (cleanStep_subset p c h1))
        · exact Or.inr (foldl_cleanStep_subset l _ (cleanStep_subset p c h2))
      · have hc2 : c.2 ∈ cleanStep p c := by
          unfold cleanStep
          rw [if_neg hd]
          exact List.mem_append_right _ (by simp)
        exact Or.inr (foldl_cleanStep_subset l _ hc2)
    · exact ih (cleanStep p d) c h

/-- Membership in the pair list of `clean`: exactly the ordered pairs of
distinct in-range indices whose points are too close. -/
lemma mem_closePairs (minDist : ℚ) (ps : List (Pt ℚ)) (a b : ℕ) :
    (a, b) ∈ closePairs minDist ps ↔
      ∃ (ha : a < ps.length) (hb : b < ps.length),
        a ≠ b ∧ qdist ps[a] ps[b] < minDist := by
  unfold closePairs
  rw [List.mem_flatMap]
  constructor
  · rintro ⟨x, hx, hy⟩
    rw [List.mem_filterMap] at hy
    obtain ⟨y, hymem, hyeq⟩ := hy
    by_cases hc : x.1 ≠ y.1 ∧ qdist x.2 y.2 < minDist
    · rw [if_pos hc] at hyeq
      obtain ⟨hx1, hy1⟩ := Prod.mk.injEq .. ▸ Option.some.inj hyeq
      obtain ⟨x1, x2⟩ := x
      obtain ⟨y1, y2⟩ := y
      simp only at hx1 hy1
      subst hx1
      subst hy1
      have hxg := List.mem_enum_iff_getElem?.mp hx
      have hyg := List.mem_enum_iff_getElem?.mp hymem
      obtain ⟨ha, hxe⟩ := List.getElem?_eq_some.mp hxg
      obtain ⟨hb, hye⟩ := List.getElem?_eq_some.mp hyg
      exact ⟨ha, hb, hc.1, by rw [hxe, hye]; exact hc.2⟩
    · rw [if_neg hc] at hyeq
      exact absurd hyeq (by simp)
  · rintro ⟨ha, hb, hab, hq⟩
    refine ⟨(a, ps[a]), ?_, ?_⟩
    · rw [List.mem_enum_iff_getElem?]
      simp [ha]
    · rw [List.mem_filterMap]
      refine ⟨(b, ps[b]), ?_, ?_⟩
      · rw [List.mem_enum_iff_getElem?]
        simp [hb]
      · rw [if_pos ⟨hab, hq⟩]

/-- Core invariant of `clean` (shared by the spacing and idempotence claims):
no two distinct surviving points are closer than the squared threshold. -/
lemma clean_no_close (len tol : ℚ) (ps : List (Pt ℚ)) {i j : ℕ}
    (hi : i < (clean len ps tol).length) (hj : j < (clean len ps tol).length)
    (hij : i ≠ j) :
    ¬ qdist (clean len ps tol)[i] (clean len ps tol)[j] < (len - tol)^2 := by
  intro hq
  set minDist := (len - tol)^2 with hmd
  set removal := (closePairs minDist ps).foldl cleanStep [] with hrm
  set fl := ps.enum.filter (fun a => decide (a.1 ∉ removal)) with hfl
  have hout : clean len ps tol = fl.map Prod.snd := rfl
  have hi2 : i < fl.length := by
    have := hi
    rw [hout, List.length_map] at this
    exact this
  have hj2 : j < fl.length := by
    have := hj
    rw [hout, List.length_map] at this
    exact this
  have hgi : (clean len ps tol)[i] = fl[i].2 := List.getElem_map Prod.snd
  have hgj : (clean len ps tol)[j] = fl[j].2 := List.getElem_map Prod.snd
  have hAf : fl[i] ∈ fl := List.getElem_mem hi2
  have hBf : fl[j] ∈ fl := List.getElem_mem hj2
  have hA2 : fl[i].1 ∉ removal := by
    have := List.of_mem_filter hAf
    simpa using this
  have hB2 : fl[j].1 ∉ removal := by
    have := List.of_mem_filter hBf
    simpa using this
  have henum : ps.enum.Pairwise (fun u v => u.1 < v.1) := by
    have hr : (List.range ps.length).Pairwise (· < ·) := List.pairwise_lt_range _
    rw [← List.enum_map_fst ps] at hr
    exact List.pairwise_map.mp hr
  have hfst : fl.Pairwise (fun u v => u.1 < v.1) :=
    henum.sublist (List.filter_sublist _)
  have hABne : fl[i].1 ≠ fl[j].1 := by
    rcases Nat.lt_or_ge i j with hlt | hge
    · exact ne_of_lt (List.pairwise_iff_getElem.mp hfst i j hi2 hj2 hlt)
    · have hlt : j < i := by omega
      exact (ne_of_lt (List.pairwise_iff_getElem.mp hfst j i hj2 hi2 hlt)).symm
  obtain ⟨hA4, hA5⟩ :=
    List.getElem?_eq_some.mp (List.mem_enum_iff_getElem?.mp (List.mem_of_mem_filter hAf))
  obtain ⟨hB4, hB5⟩ :=
    List.getElem?_eq_some.mp (List.mem_enum_iff_getElem?.mp (List.mem_of_mem_filter hBf))
  have hpair : (fl[i].1, fl[j].1) ∈ closePairs minDist ps := by
    rw [mem_closePairs]
    refine ⟨hA4, hB4, hABne, ?_⟩
    rw [hA5, hB5]
    rw [hgi, hgj] at hq
    exact hq
  rcases foldl_cleanStep_cover (closePairs minDist ps) [] _ hpair with h | h
  · exact hA2 h
  · exact hB2 h

/-- C2: after `clean(points, tolerance)`, no two distinct points of the output
have squared distance strictly below `(len - tolerance)^2`: every violating
pair loses at least one member to the greedy pair scan. -/
theorem clean_min_spacing (len tol : ℚ) (ps : List (Pt ℚ)) (i j : ℕ)
    (hi : i < (clean len ps tol).length) (hj : j < (clean len ps tol).length)
    (hij : i ≠ j) :
    ¬ qdist (clean len ps tol)[i] (clean len ps tol)[j] < (len - tol)^2 :=
  clean_no_close len tol ps hi hj hij

/-- Witness for C2 at a concrete input: cleaning `[(0,0), (1,0), (5,0)]` with
`len = 2` removes the middle point and the two survivors are not too close. -/
theorem clean_min_spacing_witness :
    ¬ qdist (⟨0, 0⟩ : Pt ℚ) ⟨5, 0⟩ < (2 - 0)^2 := by
  have heval : clean 2 [(⟨0, 0⟩ : Pt ℚ), ⟨1, 0⟩, ⟨5, 0⟩] 0 = [⟨0, 0⟩, ⟨5, 0⟩] := by
    norm_num [clean, closePairs, cleanStep, qdist, List.enum, List.enumFrom,
      List.filterMap_cons, List.foldl_cons, List.foldl_nil, List.filter_cons]
  have h := clean_min_spacing 2 0 [(⟨0, 0⟩ : Pt ℚ), ⟨1, 0⟩, ⟨5, 0⟩] 0 1
    (by rw [heval]; norm_num) (by rw [heval]; norm_num) (by norm_num)
  simpa [heval, qdist] using h

/-- If the pair list is empty, `clean` returns its input unchanged. -/
lemma clean_eq_self_of_no_pairs (len tol : ℚ) (qs : List (Pt ℚ))
    (h : closePairs ((len - tol)^2) qs = []) : clean len qs tol = qs := by
  unfold clean
  simp [h, List.enum_map_snd]

/-- C3: `clean` is idempotent: a second application with the same length and
tolerance removes nothing further and returns the same sequence. -/
theorem clean_idempotent (len tol : ℚ) (ps : List (Pt ℚ)) :
    clean len (clean len ps tol) tol = clean len ps tol := by
  apply clean_eq_self_of_no_pairs
  rw [List.eq_nil_iff_forall_not_mem]
  rintro ⟨a, b⟩ hab
  rw [mem_closePairs] at hab
  obtain ⟨ha, hb, hne, hq⟩ := hab
  exact clean_no_close len tol ps ha hb hne hq

/-- For in-range sample indices the clamp in the arc-length loop is the
identity. -/
lemma clamp_sample (i res : ℕ) (hres : 1 ≤ res) (hi : i ≤ res) :
    clamp ((i : ℝ) * (1 / (res : ℝ))) 0 1 = (i : ℝ) / (res : ℝ) := by
  have hrp : (0 : ℝ) < (res : ℝ) := by exact_mod_cast hres
  have h0 : (0 : ℝ) ≤ (i : ℝ) * (1 / (res : ℝ)) := by positivity
  have h1 : (i : ℝ) * (1 / (res : ℝ)) ≤ 1 := by
    rw [mul_one_div, div_le_one hrp]
    exact_mod_cast hi
  unfold clamp
  rw [max_eq_left h0, min_eq_left h1, mul_one_div]

/-- Invariant of the arc-length sampling loop: from index `i` on, the recorded
entries have strictly increasing `t` and non-decreasing cumulative length, all
`t`s at least the current sample parameter and all lengths at least the
running total. -/
lemma arcApproxGo_inv (f : ℝ → Pt ℝ) (res : ℕ) (hres : 1 ≤ res) :
    ∀ (n i : ℕ) (prev : Pt ℝ) (total : ℝ), res - i = n →
      ((arcApproxGo f res i prev total).arcLengthMap.Pairwise
          (fun e1 e2 => e1.1 < e2.1 ∧ e1.2 ≤ e2.2)) ∧
      ∀ e ∈ (arcApproxGo f res i prev total).arcLengthMap,
        (if i < res then (i : ℝ) / (res : ℝ) else 1) ≤ e.1 ∧ total ≤ e.2 := by
  have hrp : (0 : ℝ) < (res : ℝ) := by exact_mod_cast hres
  intro n
  induction n with
  | zero =>
    intro i prev total hn
    have hge : ¬ i < res := by omega
    rw [arcApproxGo, dif_neg hge]
    constructor
    · simp
    · intro e he
      simp only [List.mem_singleton] at he
      subst he
      have hd : 0 ≤ distance prev (f 1) := Real.sqrt_nonneg _
      exact ⟨by rw [if_neg hge], by simpa using hd⟩
  | succ n ih =>
    intro i prev total hn
    have hlt : i < res := by omega
    rw [arcApproxGo, dif_pos hlt]
    dsimp only
    rw [clamp_sample i res hres (le_of_lt hlt)]
    set t : ℝ := (i : ℝ) / (res : ℝ) with ht
    set d : ℝ := distance prev (f t) with hdd
    have hd : 0 ≤ d := Real.sqrt_nonneg _
    obtain ⟨ihp, ihb⟩ := ih (i + 1) (f t) (total + d) (by omega)
    have hlb : t < (if i + 1 < res then ((i + 1 : ℕ) : ℝ) / (res : ℝ) else 1) := by
      rcases Nat.lt_or_ge (i + 1) res with h | h
      · rw [if_pos h, ht]
        gcongr
        exact_mod_cast Nat.lt_succ_self i
      · rw [if_neg (by omega), ht, div_lt_one hrp]
        exact_mod_cast hlt
    constructor
    · refine List.Pairwise.cons ?_ ihp
      intro e he
      obtain ⟨he1, he2⟩ := ihb e he
      exact ⟨lt_of_lt_of_le hlb he1, he2⟩
    · intro e he
      rcases List.mem_cons.mp he with h | h
      · subst h
        exact ⟨by rw [if_pos hlt], by simpa using hd⟩
      · obtain ⟨he1, he2⟩ := ihb e h
        refine ⟨?_, by linarith⟩
        rw [if_pos hlt]
        exact le_trans (le_of_lt hlb) he1

/-- C7: for every curve evaluator and every resolution at least 1, the
arc-length map of `approximateArcLengthOfCurve` is strictly increasing in `t`
and monotonically non-decreasing in cumulative arc length across its
entries. -/
theorem arcLengthMap_monotone (resolution : ℕ) (f : ℝ → Pt ℝ)
    (h : 1 ≤ resolution) :
    (approximateArcLengthOfCurve resolution f).arcLengthMap.Pairwise
      (fun e1 e2 => e1.1 < e2.1 ∧ e1.2 ≤ e2.2) := by
  unfold approximateArcLengthOfCurve
  rw [if_neg (by omega)]
  exact (arcApproxGo_inv f resolution h resolution 0 (f 0) 0 (by omega)).1

/-- Witness for C7 at a concrete resolution and evaluator. -/
theorem arcLengthMap_monotone_witness :
    (approximateArcLengthOfCurve 1 (fun _ => (⟨0, 0⟩ : Pt ℝ))).arcLengthMap.Pairwise
      (fun e1 e2 => e1.1 < e2.1 ∧ e1.2 ≤ e2.2) :=
  arcLengthMap_monotone 1 (fun _ => (⟨0, 0⟩ : Pt ℝ)) (by norm_num)

/-- Points are equal iff both coordinates are. -/
@[ext] lemma Pt.ext {α : Type} {p q : Pt α} (hx : p.x = q.x) (hy : p.y = q.y) :
    p = q := by
  cases p
  cases q
  simp_all

/-- C5: for every `t`, if the arc's start point equals its end point exactly,
`pointOnArc` returns the start point; and if either radius is zero,
`pointOnArc` returns exactly the Line evaluator between start and end at
`t` (also when both degeneracies hold at once, since then the line collapses
to the same point). -/
theorem pointOnArc_degenerate (A : ArcInput) (t : ℝ) :
    (A.p0 = A.p1 → pointOnArc A t = A.p0) ∧
    (A.rx = 0 ∨ A.ry = 0 → pointOnArc A t = pointOnLine A.p0 A.p1 t) := by
  constructor
  · intro h
    unfold pointOnArc
    rw [if_pos ⟨congrArg Pt.x h, congrArg Pt.y h⟩]
  · intro h
    by_cases he : A.p0.x = A.p1.x ∧ A.p0.y = A.p1.y
    · unfold pointOnArc
      rw [if_pos he]
      obtain ⟨hx, hy⟩ := he
      unfold pointOnLine
      refine Pt.ext ?_ ?_
      · dsimp
        rw [← hx]
        ring
      · dsimp
        rw [← hy]
        ring
    · unfold pointOnArc
      rw [if_neg he, if_pos]
      rcases h with h | h
      · exact Or.inl (by rw [Arc.rxAbs, h, abs_zero])
      · exact Or.inr (by rw [Arc.ryAbs, h, abs_zero])

/-- Witness for C5 at concrete inputs: a point-degenerate arc and a
zero-radius arc. -/
theorem pointOnArc_degenerate_witness :
    pointOnArc ⟨⟨1, 2⟩, 0, 1, 0, false, false, ⟨1, 2⟩⟩ 5 = ⟨1, 2⟩ ∧
    pointOnArc ⟨⟨0, 0⟩, 0, 1, 0, false, false, ⟨3, 4⟩⟩ 5 =
      pointOnLine (⟨0, 0⟩ : Pt ℝ) ⟨3, 4⟩ 5 :=
  ⟨(pointOnArc_degenerate ⟨⟨1, 2⟩, 0, 1, 0, false, false, ⟨1, 2⟩⟩ 5).1 rfl,
   (pointOnArc_degenerate ⟨⟨0, 0⟩, 0, 1, 0, false, false, ⟨3, 4⟩⟩ 5).2 (Or.inl rfl)⟩

/-- The signed angle returned by `angleBetween` always lies in `[-π, π]`. -/
lemma angleBetween_mem (v0 v1 : Pt ℝ) :
    -Real.pi ≤ angleBetween v0 v1 ∧ angleBetween v0 v1 ≤ Real.pi := by
  unfold angleBetween
  have ha1 := Real.arccos_nonneg
    ((v0.x * v1.x + v0.y * v1.y) /
      Real.sqrt ((v0.x^2 + v0.y^2) * (v1.x^2 + v1.y^2)))
  have ha2 := Real.arccos_le_pi
    ((v0.x * v1.x + v0.y * v1.y) /
      Real.sqrt ((v0.x^2 + v0.y^2) * (v1.x^2 + v1.y^2)))
  have hpi := Real.pi_pos
  dsimp only
  split
  · constructor <;> linarith
  · constructor <;> linarith

/-- The JavaScript remainder is the identity on arguments smaller than the
modulus in absolute value. -/
lemma jsRem_of_abs_lt {x m : ℝ} (hm : 0 < m) (h : |x| < m) : jsRem x m = x := by
  obtain ⟨h1, h2⟩ := abs_lt.mp h
  unfold jsRem jsTrunc
  by_cases hx : 0 ≤ x / m
  · rw [if_pos hx]
    have hz : ⌊x / m⌋ = 0 := by
      rw [Int.floor_eq_zero_iff]
      constructor
      · exact hx
      · rw [div_lt_one hm]
        exact h2
    rw [hz]
    push_cast
    ring
  · rw [if_neg hx]
    have hz : ⌈x / m⌉ = 0 := by
      rw [Int.ceil_eq_zero_iff]
      constructor
      · show -1 < x / m
        rw [lt_div_iff₀ hm]
        linarith
      · exact le_of_lt (lt_of_not_le hx)
    rw [hz]
    push_cast
    ring

/-- Range of the corrected sweep angle before the final `%`: nonpositive and
above `-2π` when the sweep flag is unset, nonnegative and below `2π` when it
is set. -/
lemma sweepAdj_range (A : ArcInput) :
    (A.swp = false → -(2 * Real.pi) < Arc.sweepAdj A ∧ Arc.sweepAdj A ≤ 0) ∧
    (A.swp = true → 0 ≤ Arc.sweepAdj A ∧ Arc.sweepAdj A < 2 * Real.pi) := by
  obtain ⟨hs1, hs2⟩ := angleBetween_mem (Arc.sv A) (Arc.ev A)
  have hpi := Real.pi_pos
  have hs1' : -Real.pi ≤ Arc.sweep0 A := hs1
  have hs2' : Arc.sweep0 A ≤ Real.pi := hs2
  unfold Arc.sweepAdj
  constructor
  · intro hswp
    rw [hswp]
    by_cases hpos : 0 < Arc.sweep0 A
    · rw [if_pos ⟨rfl, hpos⟩]
      constructor <;> linarith
    · rw [if_neg (by simp [hpos]), if_neg (by simp)]
      constructor <;> linarith [not_lt.mp hpos]
  · intro hswp
    rw [hswp]
    by_cases hneg : Arc.sweep0 A < 0
    · rw [if_neg (by simp), if_pos ⟨rfl, hneg⟩]
      constructor <;> linarith
    · rw [if_neg (by simp), if_neg (by simp [hneg])]
      constructor <;> linarith [not_lt.mp hneg]

/-- C6: in the non-degenerate branch of `pointOnArc`, the computed sweep angle
is nonpositive when the sweep flag is unset, nonnegative when it is set, and
always strictly smaller than `2π` in absolute value. -/
theorem sweepAngle_sign_bound (A : ArcInput) :
    (A.swp = false → Arc.sweepAngle A ≤ 0) ∧
    (A.swp = true → 0 ≤ Arc.sweepAngle A) ∧
    |Arc.sweepAngle A| < 2 * Real.pi := by
  have hpi := Real.pi_pos
  have hr := sweepAdj_range A
  have habs : |Arc.sweepAdj A| < 2 * Real.pi := by
    cases hswp : A.swp
    · obtain ⟨h1, h2⟩ := hr.1 hswp
      rw [abs_lt]
      constructor <;> linarith
    · obtain ⟨h1, h2⟩ := hr.2 hswp
      rw [abs_lt]
      constructor <;> linarith
  have heq : Arc.sweepAngle A = Arc.sweepAdj A := by
    unfold Arc.sweepAngle
    exact jsRem_of_abs_lt (by linarith) habs
  rw [heq]
  exact ⟨fun h => (hr.1 h).2, fun h => (hr.2 h).1, habs⟩

/-- Witness for C6 at concrete inputs, one for each sweep-flag value. -/
theorem sweepAngle_sign_bound_witness :
    Arc.sweepAngle ⟨⟨0, 0⟩, 1, 1, 0, false, false, ⟨1, 0⟩⟩ ≤ 0 ∧
    0 ≤ Arc.sweepAngle ⟨⟨0, 0⟩, 1, 1, 0, false, true, ⟨1, 0⟩⟩ ∧
    |Arc.sweepAngle ⟨⟨0, 0⟩, 1, 1, 0, false, false, ⟨1, 0⟩⟩| < 2 * Real.pi :=
  ⟨(sweepAngle_sign_bound ⟨⟨0, 0⟩, 1, 1, 0, false, false, ⟨1, 0⟩⟩).1 rfl,
   (sweepAngle_sign_bound ⟨⟨0, 0⟩, 1, 1, 0, false, true, ⟨1, 0⟩⟩).2.1 rfl,
   (sweepAngle_sign_bound ⟨⟨0, 0⟩, 1, 1, 0, false, false, ⟨1, 0⟩⟩).2.2⟩

/-- For unit vectors, `angleBetween` returns an angle whose cosine is the dot
product and whose sine is the cross product of the two vectors. -/
lemma angleBetween_cos_sin (v0 v1 : Pt ℝ) (h0 : v0.x^2 + v0.y^2 = 1)
    (h1 : v1.x^2 + v1.y^2 = 1) :
    Real.cos (angleBetween v0 v1) = v0.x * v1.x + v0.y * v1.y ∧
    Real.sin (angleBetween v0 v1) = v0.x * v1.y - v0.y * v1.x := by
  have hl : (v0.x * v1.x + v0.y * v1.y)^2 + (v0.x * v1.y - v0.y * v1.x)^2 = 1 := by
    have hr : (v0.x * v1.x + v0.y * v1.y)^2 + (v0.x * v1.y - v0.y * v1.x)^2 =
        (v0.x^2 + v0.y^2) * (v1.x^2 + v1.y^2) := by ring
    rw [hr, h0, h1, mul_one]
  have hn : Real.sqrt ((v0.x^2 + v0.y^2) * (v1.x^2 + v1.y^2)) = 1 := by
    rw [h0, h1, mul_one, Real.sqrt_one]
  unfold angleBetween
  dsimp only
  rw [hn, div_one]
  set dot := v0.x * v1.x + v0.y * v1.y with hdot
  set cross := v0.x * v1.y - v0.y * v1.x with hcross
  have hd2 : dot^2 ≤ 1 := by nlinarith [sq_nonneg cross]
  have hdabs := abs_le.mp ((sq_le_one_iff_abs_le_one dot).mp hd2)
  have hcs : 1 - dot^2 = cross^2 := by linarith
  by_cases hc : cross < 0
  · rw [if_pos hc]
    constructor
    · rw [neg_one_mul, Real.cos_neg, Real.cos_arccos hdabs.1 hdabs.2]
    · rw [neg_one_mul, Real.sin_neg, Real.sin_arccos, hcs, Real.sqrt_sq_eq_abs,
        abs_of_neg hc, neg_neg]
  · rw [if_neg hc]
    constructor
    · rw [one_mul, Real.cos_arccos hdabs.1 hdabs.2]
    · rw [one_mul, Real.sin_arccos, hcs, Real.sqrt_sq_eq_abs,
        abs_of_nonneg (not_lt.mp hc)]

/-- The corrected x-radius is positive for a nonzero input radius. -/
lemma arc_rxF_pos (A : ArcInput) (hrx : A.rx ≠ 0) : 0 < Arc.rxF A := by
  have h1 : 0 < Arc.rxAbs A := abs_pos.mpr hrx
  unfold Arc.rxF
  by_cases h : 1 < Arc.radiiCheck A
  · rw [if_pos h]
    exact mul_pos (Real.sqrt_pos.mpr (by linarith)) h1
  · rw [if_neg h]
    exact h1

/-- The corrected y-radius is positive for a nonzero input radius. -/
lemma arc_ryF_pos (A : ArcInput) (hry : A.ry ≠ 0) : 0 < Arc.ryF A := by
  have h1 : 0 < Arc.ryAbs A := abs_pos.mpr hry
  unfold Arc.ryF
  by_cases h : 1 < Arc.radiiCheck A
  · rw [if_pos h]
    exact mul_pos (Real.sqrt_pos.mpr (by linarith)) h1
  · rw [if_neg h]
    exact h1

/-- Rotating back the transformed point recovers the x-component of the
half-difference of the endpoints. -/
lemma arc_tp_inv_x (A : ArcInput) :
    Real.cos (Arc.phi A) * (Arc.tp A).x - Real.sin (Arc.phi A) * (Arc.tp A).y =
      (A.p0.x - A.p1.x) / 2 := by
  have h := Real.sin_sq_add_cos_sq (Arc.phi A)
  unfold Arc.tp Arc.dMid
  dsimp only
  linear_combination ((A.p0.x - A.p1.x) / 2) * h

/-- Rotating back the transformed point recovers the y-component of the
half-difference of the endpoints. -/
lemma arc_tp_inv_y (A : ArcInput) :
    Real.sin (Arc.phi A) * (Arc.tp A).x + Real.cos (Arc.phi A) * (Arc.tp A).y =
      (A.p0.y - A.p1.y) / 2 := by
  have h := Real.sin_sq_add_cos_sq (Arc.phi A)
  unfold Arc.tp Arc.dMid
  dsimp only
  linear_combination ((A.p0.y - A.p1.y) / 2) * h

/-- For distinct endpoints the transformed point is nonzero. -/
lemma arc_tp_ne (A : ArcInput) (hne : A.p0 ≠ A.p1) :
    (Arc.tp A).x ≠ 0 ∨ (Arc.tp A).y ≠ 0 := by
  by_contra h
  push_neg at h
  obtain ⟨hx, hy⟩ := h
  have h1 := arc_tp_inv_x A
  have h2 := arc_tp_inv_y A
  rw [hx, hy] at h1 h2
  apply hne
  refine Pt.ext ?_ ?_
  · have : (A.p0.x - A.p1.x) / 2 = 0 := by linarith [h1]
    linarith
  · have : (A.p0.y - A.p1.y) / 2 = 0 := by linarith [h2]
    linarith

/-- The denominator of the radicand in the center computation is positive. -/
lemma arc_den_pos (A : ArcInput) (hne : A.p0 ≠ A.p1) (hrx : A.rx ≠ 0)
    (hry : A.ry ≠ 0) :
    0 < (Arc.rxF A)^2 * (Arc.tp A).y^2 + (Arc.ryF A)^2 * (Arc.tp A).x^2 := by
  have hx := arc_rxF_pos A hrx
  have hy := arc_ryF_pos A hry
  rcases arc_tp_ne A hne with h | h
  · have h2 : 0 < (Arc.ryF A)^2 * (Arc.tp A).x^2 := by positivity
    have h3 : 0 ≤ (Arc.rxF A)^2 * (Arc.tp A).y^2 := by positivity
    linarith
  · have h2 : 0 < (Arc.rxF A)^2 * (Arc.tp A).y^2 := by positivity
    have h3 : 0 ≤ (Arc.ryF A)^2 * (Arc.tp A).x^2 := by positivity
    linarith

/-- The out-of-range check times the product of squared radii equals the
weighted sum of the transformed point's squared coordinates. -/
lemma arc_check_mul (A : ArcInput) (hrx : A.rx ≠ 0) (hry : A.ry ≠ 0) :
    Arc.radiiCheck A * ((Arc.rxAbs A)^2 * (Arc.ryAbs A)^2) =
      (Arc.tp A).x^2 * (Arc.ryAbs A)^2 + (Arc.tp A).y^2 * (Arc.rxAbs A)^2 := by
  have h1 : Arc.rxAbs A ≠ 0 := ne_of_gt (abs_pos.mpr hrx)
  have h2 : Arc.ryAbs A ≠ 0 := ne_of_gt (abs_pos.mpr hry)
  unfold Arc.radiiCheck
  field_simp

/-- After the radii correction the radicand of the center computation never
goes negative in exact arithmetic. -/
lemma arc_cRadicand_nonneg (A : ArcInput) (hne : A.p0 ≠ A.p1) (hrx : A.rx ≠ 0)
    (hry : A.ry ≠ 0) : 0 ≤ Arc.cRadicand A := by
  have hden := arc_den_pos A hne hrx hry
  have hchk := arc_check_mul A hrx hry
  unfold Arc.cRadicand
  apply div_nonneg _ (le_of_lt hden)
  by_cases h : 1 < Arc.radiiCheck A
  · have h0 : (0 : ℝ) ≤ Arc.radiiCheck A := by linarith
    have hs : Real.sqrt (Arc.radiiCheck A) ^ 2 = Arc.radiiCheck A := Real.sq_sqrt h0
    have hrx2 : (Arc.rxF A)^2 = Arc.radiiCheck A * (Arc.rxAbs A)^2 := by
      unfold Arc.rxF
      rw [if_pos h, mul_pow, hs]
    have hry2 : (Arc.ryF A)^2 = Arc.radiiCheck A * (Arc.ryAbs A)^2 := by
      unfold Arc.ryF
      rw [if_pos h, mul_pow, hs]
    have hz : (Arc.rxF A)^2 * (Arc.ryF A)^2 - (Arc.rxF A)^2 * (Arc.tp A).y^2 -
        (Arc.ryF A)^2 * (Arc.tp A).x^2 = 0 := by
      rw [hrx2, hry2]
      linear_combination Arc.radiiCheck A * hchk
    exact le_of_eq hz.symm
  · have h1 : Arc.radiiCheck A ≤ 1 := not_lt.mp h
    have hrx2 : Arc.rxF A = Arc.rxAbs A := by
      unfold Arc.rxF
      rw [if_neg h]
    have hry2 : Arc.ryF A = Arc.ryAbs A := by
      unfold Arc.ryF
      rw [if_neg h]
    have hz : (Arc.rxF A)^2 * (Arc.ryF A)^2 - (Arc.rxF A)^2 * (Arc.tp A).y^2 -
        (Arc.ryF A)^2 * (Arc.tp A).x^2 =
        (Arc.rxAbs A)^2 * (Arc.ryAbs A)^2 * (1 - Arc.radiiCheck A) := by
      rw [hrx2, hry2]
      linear_combination hchk
    rw [hz]
    have hp : (0 : ℝ) ≤ (Arc.rxAbs A)^2 * (Arc.ryAbs A)^2 := by positivity
    have hq : (0 : ℝ) ≤ 1 - Arc.radiiCheck A := by linarith
    exact mul_nonneg hp hq

/-- In exact arithmetic the clamp of the radicand never fires and `cCoef`
squares to the radicand. -/
lemma arc_cCoef_sq (A : ArcInput) (h0 : 0 ≤ Arc.cRadicand A) :
    (Arc.cCoef A)^2 = Arc.cRadicand A := by
  unfold Arc.cCoef Arc.cRadicandPos
  rw [if_neg (not_lt.mpr h0)]
  by_cases h : A.lrg ≠ A.swp
  · rw [if_pos h, one_mul, Real.sq_sqrt h0]
  · rw [if_neg h, mul_pow, Real.sq_sqrt h0]
    norm_num

/-- `cCoef` squared times the radicand denominator gives its numerator. -/
lemma arc_cCoef_mul_den (A : ArcInput) (hne : A.p0 ≠ A.p1) (hrx : A.rx ≠ 0)
    (hry : A.ry ≠ 0) :
    (Arc.cCoef A)^2 *
        ((Arc.rxF A)^2 * (Arc.tp A).y^2 + (Arc.ryF A)^2 * (Arc.tp A).x^2) =
      (Arc.rxF A)^2 * (Arc.ryF A)^2 - (Arc.rxF A)^2 * (Arc.tp A).y^2 -
        (Arc.ryF A)^2 * (Arc.tp A).x^2 := by
  have h0 := arc_cRadicand_nonneg A hne hrx hry
  have hden := arc_den_pos A hne hrx hry
  rw [arc_cCoef_sq A h0]
  unfold Arc.cRadicand
  rw [div_mul_cancel₀ _ (ne_of_gt hden)]

/-- The start vector of the arc is a unit vector. -/
lemma arc_sv_norm (A : ArcInput) (hne : A.p0 ≠ A.p1) (hrx : A.rx ≠ 0)
    (hry : A.ry ≠ 0) : (Arc.sv A).x^2 + (Arc.sv A).y^2 = 1 := by
  have hrxF0 : Arc.rxF A ≠ 0 := ne_of_gt (arc_rxF_pos A hrx)
  have hryF0 : Arc.ryF A ≠ 0 := ne_of_gt (arc_ryF_pos A hry)
  have hc2 := arc_cCoef_mul_den A hne hrx hry
  unfold Arc.sv Arc.tc
  dsimp only
  field_simp
  linear_combination (Arc.rxF A ^ 2 * Arc.ryF A ^ 2) * hc2

/-- The end vector of the arc is a unit vector. -/
lemma arc_ev_norm (A : ArcInput) (hne : A.p0 ≠ A.p1) (hrx : A.rx ≠ 0)
    (hry : A.ry ≠ 0) : (Arc.ev A).x^2 + (Arc.ev A).y^2 = 1 := by
  have hrxF0 : Arc.rxF A ≠ 0 := ne_of_gt (arc_rxF_pos A hrx)
  have hryF0 : Arc.ryF A ≠ 0 := ne_of_gt (arc_ryF_pos A hry)
  have hc2 := arc_cCoef_mul_den A hne hrx hry
  unfold Arc.ev Arc.tc
  dsimp only
  field_simp
  linear_combination (Arc.rxF A ^ 2 * Arc.ryF A ^ 2) * hc2

/-- Cosine and sine of the computed start angle. -/
lemma arc_cos_sin_startAngle (A : ArcInput) (hne : A.p0 ≠ A.p1) (hrx : A.rx ≠ 0)
    (hry : A.ry ≠ 0) :
    Real.cos (Arc.startAngle A) = (Arc.sv A).x ∧
    Real.sin (Arc.startAngle A) = (Arc.sv A).y := by
  have hsv := arc_sv_norm A hne hrx hry
  have h := angleBetween_cos_sin ⟨1, 0⟩ (Arc.sv A) (by norm_num) hsv
  unfold Arc.startAngle
  constructor
  · rw [h.1]
    dsimp
    ring
  · rw [h.2]
    dsimp
    ring

/-- Cosine and sine of the raw sweep angle. -/
lemma arc_cos_sin_sweep0 (A : ArcInput) (hne : A.p0 ≠ A.p1) (hrx : A.rx ≠ 0)
    (hry : A.ry ≠ 0) :
    Real.cos (Arc.sweep0 A) =
      (Arc.sv A).x * (Arc.ev A).x + (Arc.sv A).y * (Arc.ev A).y ∧
    Real.sin (Arc.sweep0 A) =
      (Arc.sv A).x * (Arc.ev A).y - (Arc.sv A).y * (Arc.ev A).x := by
  unfold Arc.sweep0
  exact angleBetween_cos_sin (Arc.sv A) (Arc.ev A) (arc_sv_norm A hne hrx hry)
    (arc_ev_norm A hne hrx hry)

/-- The flag corrections and the final `%` change the sweep angle only by an
integer multiple of `2π`. -/
lemma arc_sweepAngle_mod (A : ArcInput) :
    ∃ m : ℤ, Arc.sweepAngle A = Arc.sweep0 A + m * (2 * Real.pi) := by
  have hadj : ∃ j : ℤ, Arc.sweepAdj A = Arc.sweep0 A + j * (2 * Real.pi) := by
    unfold Arc.sweepAdj
    by_cases h1 : A.swp = false ∧ 0 < Arc.sweep0 A
    · rw [if_pos h1]
      exact ⟨-1, by push_cast; ring⟩
    · rw [if_neg h1]
      by_cases h2 : A.swp = true ∧ Arc.sweep0 A < 0
      · rw [if_pos h2]
        exact ⟨1, by push_cast; ring⟩
      · rw [if_neg h2]
        exact ⟨0, by push_cast; ring⟩
  obtain ⟨j, hj⟩ := hadj
  unfold Arc.sweepAngle jsRem
  set k := jsTrunc (Arc.sweepAdj A / (2 * Real.pi)) with hk
  refine ⟨j - k, ?_⟩
  rw [hj]
  push_cast
  ring

/-- Cosine and sine of the angle at `t = 1`. -/
lemma arc_cos_sin_end (A : ArcInput) (hne : A.p0 ≠ A.p1) (hrx : A.rx ≠ 0)
    (hry : A.ry ≠ 0) :
    Real.cos (Arc.startAngle A + Arc.sweepAngle A) = (Arc.ev A).x ∧
    Real.sin (Arc.startAngle A + Arc.sweepAngle A) = (Arc.ev A).y := by
  obtain ⟨m, hm⟩ := arc_sweepAngle_mod A
  have hsv := arc_sv_norm A hne hrx hry
  obtain ⟨hc0, hs0⟩ := arc_cos_sin_startAngle A hne hrx hry
  obtain ⟨hcw, hsw⟩ := arc_cos_sin_sweep0 A hne hrx hry
  have harg : Arc.startAngle A + Arc.sweepAngle A =
      (Arc.startAngle A + Arc.sweep0 A) + m * (2 * Real.pi) := by
    rw [hm]
    ring
  constructor
  · rw [harg, Real.cos_add_int_mul_two_pi, Real.cos_add, hc0, hs0, hcw, hsw]
    linear_combination (Arc.ev A).x * hsv
  · rw [harg, Real.sin_add_int_mul_two_pi, Real.sin_add, hc0, hs0, hcw, hsw]
    linear_combination (Arc.ev A).y * hsv

/-- C4: for every non-degenerate elliptical arc (distinct endpoints, nonzero
radii, any rotation and flags), `pointOnArc` evaluated at `t = 0` returns the
start point and at `t = 1` returns the end point, exactly in real
arithmetic. -/
theorem pointOnArc_endpoints (A : ArcInput) (hne : A.p0 ≠ A.p1)
    (hrx : A.rx ≠ 0) (hry : A.ry ≠ 0) :
    pointOnArc A 0 = A.p0 ∧ pointOnArc A 1 = A.p1 := by
  have hcond1 : ¬(A.p0.x = A.p1.x ∧ A.p0.y = A.p1.y) := fun h => hne (Pt.ext h.1 h.2)
  have hcond2 : ¬(Arc.rxAbs A = 0 ∨ Arc.ryAbs A = 0) := by
    push_neg
    exact ⟨abs_ne_zero.mpr hrx, abs_ne_zero.mpr hry⟩
  have hrxF0 : Arc.rxF A ≠ 0 := ne_of_gt (arc_rxF_pos A hrx)
  have hryF0 : Arc.ryF A ≠ 0 := ne_of_gt (arc_ryF_pos A hry)
  obtain ⟨hc0, hs0⟩ := arc_cos_sin_startAngle A hne hrx hry
  obtain ⟨hc1, hs1⟩ := arc_cos_sin_end A hne hrx hry
  have hinvx := arc_tp_inv_x A
  have hinvy := arc_tp_inv_y A
  have hsvx : Arc.rxF A * (Arc.sv A).x = (Arc.tp A).x - (Arc.tc A).x := by
    unfold Arc.sv
    dsimp only
    field_simp
  have hsvy : Arc.ryF A * (Arc.sv A).y = (Arc.tp A).y - (Arc.tc A).y := by
    unfold Arc.sv
    dsimp only
    field_simp
  have hevx : Arc.rxF A * (Arc.ev A).x = -(Arc.tp A).x - (Arc.tc A).x := by
    unfold Arc.ev
    dsimp only
    field_simp
  have hevy : Arc.ryF A * (Arc.ev A).y = -(Arc.tp A).y - (Arc.tc A).y := by
    unfold Arc.ev
    dsimp only
    field_simp
  constructor
  · unfold pointOnArc
    rw [if_neg hcond1, if_neg hcond2]
    dsimp only
    rw [mul_zero, add_zero, hc0, hs0]
    refine Pt.ext ?_ ?_
    · show Real.cos (Arc.phi A) * (Arc.rxF A * (Arc.sv A).x) -
        Real.sin (Arc.phi A) * (Arc.ryF A * (Arc.sv A).y) + (Arc.center A).x = A.p0.x
      unfold Arc.center
      dsimp only
      linear_combination Real.cos (Arc.phi A) * hsvx - Real.sin (Arc.phi A) * hsvy + hinvx
    · show Real.sin (Arc.phi A) * (Arc.rxF A * (Arc.sv A).x) +
        Real.cos (Arc.phi A) * (Arc.ryF A * (Arc.sv A).y) + (Arc.center A).y = A.p0.y
      unfold Arc.center
      dsimp only
      linear_combination Real.sin (Arc.phi A) * hsvx + Real.cos (Arc.phi A) * hsvy + hinvy
  · unfold pointOnArc
    rw [if_neg hcond1, if_neg hcond2]
    dsimp only
    rw [mul_one, hc1, hs1]
    refine Pt.ext ?_ ?_
    · show Real.cos (Arc.phi A) * (Arc.rxF A * (Arc.ev A).x) -
        Real.sin (Arc.phi A) * (Arc.ryF A * (Arc.ev A).y) + (Arc.center A).x = A.p1.x
      unfold Arc.center
      dsimp only
      linear_combination Real.cos (Arc.phi A) * hevx - Real.sin (Arc.phi A) * hevy - hinvx
    · show Real.sin (Arc.phi A) * (Arc.rxF A * (Arc.ev A).x) +
        Real.cos (Arc.phi A) * (Arc.ryF A * (Arc.ev A).y) + (Arc.center A).y = A.p1.y
      unfold Arc.center
      dsimp only
      linear_combination Real.sin (Arc.phi A) * hevx + Real.cos (Arc.phi A) * hevy - hinvy

/-- Witness for C4 at a concrete non-degenerate arc. -/
theorem pointOnArc_endpoints_witness :
    pointOnArc ⟨⟨0, 0⟩, 1, 1, 0, false, false, ⟨2, 0⟩⟩ 0 = ⟨0, 0⟩ ∧
    pointOnArc ⟨⟨0, 0⟩, 1, 1, 0, false, false, ⟨2, 0⟩⟩ 1 = ⟨2, 0⟩ :=
  pointOnArc_endpoints ⟨⟨0, 0⟩, 1, 1, 0, false, false, ⟨2, 0⟩⟩
    (by
      intro h
      have h2 := congrArg Pt.x h
      dsimp at h2
      norm_num at h2)
    one_ne_zero one_ne_zero
